import Mathlib

/-!
Shallow embedding of the g-SDDMM CUDA kernels in `src/array/cuda/sddmm.cuh`.

Device buffers are modelled as total maps from flat index to element; machine
pointers as a base map plus an offset, with the null pointer modelled as `none`.
The two strided kernel loops are modelled as explicit visit lists (one per
execution unit, i.e. per `(blockIdx, threadIdx)` combination on each axis), and
a kernel launch as a left fold of single-cell writes over the concatenation of
the visit lists of all units.  Index arithmetic is over `Nat`; all signed quantities
in the source are non-negative in every execution the preconditions of the kernels
allow.
-/

namespace Sddmm

/-- Element type of the feature buffers (the `DType` template argument); exact
integers stand in for the numeric payload. -/
abbrev DType := Int

/-- Operator functor contract (the `BinaryOp` template argument; the catalog
itself, `functor.cuh`, is external to this header): the compile-time
`use_lhs`/`use_rhs` flags plus `Call`, a pure function of two windows and the
reduce size.  A null window pointer is modelled as `none`. -/
structure BinaryOp where
  use_lhs : Bool
  use_rhs : Bool
  Call : Option (Nat → DType) → Option (Nat → DType) → Nat → DType

/-- Pointer arithmetic on a possibly-null window pointer: `w + off` in the
source.  Offsetting null stays null. -/
def ptrAdd (w : Option (Nat → DType)) (off : Nat) : Option (Nat → DType) :=
  w.map (fun f i => f (off + i))

/-- Arguments of `SDDMMCooKernel`: feature buffers, COO structure arrays, the
template flags `UseBcast`/`UseIdx`, the broadcast offset tables and the scalar
lengths. -/
structure CooArgs where
  op : BinaryOp
  ufeat : Nat → DType
  vfeat : Nat → DType
  row : Nat → Nat
  col : Nat → Nat
  edge_map : Nat → Nat
  useBcast : Bool
  useIdx : Bool
  ubcast_off : Nat → Nat
  vbcast_off : Nat → Nat
  E : Nat
  reduce_size : Nat
  ufeat_len : Nat
  vfeat_len : Nat
  out_len : Nat

/-- Arguments of `SDDMMCsrKernel`: as `CooArgs` but the structure is the CSR
`indptr`/`indices` pair plus the number of rows `N`. -/
structure CsrArgs where
  op : BinaryOp
  ufeat : Nat → DType
  vfeat : Nat → DType
  indptr : Nat → Nat
  indices : Nat → Nat
  edge_map : Nat → Nat
  useBcast : Bool
  useIdx : Bool
  ubcast_off : Nat → Nat
  vbcast_off : Nat → Nat
  N : Nat
  E : Nat
  reduce_size : Nat
  ufeat_len : Nat
  vfeat_len : Nat
  out_len : Nat

/-- The index values visited by one strided `while (t < bound) { ...; t += stride }`
loop starting at `t = init`.  The fuel argument only bounds recursion depth;
`fuel = bound` is always enough when `stride > 0`. -/
def stridedIdx : Nat → Nat → Nat → Nat → List Nat
  | 0, _, _, _ => []
  | fuel + 1, t, stride, bound =>
    if t < bound then t :: stridedIdx fuel (t + stride) stride bound else []

/-- The `(ty, tx)` pairs visited by a single execution unit: the outer strided
loop over edges (`y` axis) nested with the inner strided loop over output
positions (`x` axis). -/
def threadPairs (ty0 sy tx0 sx E L : Nat) : List (Nat × Nat) :=
  (stridedIdx E ty0 sy E).flatMap
    (fun ty => (stridedIdx L tx0 sx L).map (fun tx => (ty, tx)))

/-- All `(ty, tx)` pairs visited across the whole launch grid, unit by unit:
`ty` starts at `blockIdx.y * blockDim.y + threadIdx.y` with stride
`blockDim.y * gridDim.y`, and `tx` starts at `blockIdx.x * blockDim.x +
threadIdx.x` with stride `blockDim.x * gridDim.x`. -/
def gridPairs (ntx nty nbx nby E L : Nat) : List (Nat × Nat) :=
  (List.range nby).flatMap fun biy =>
    (List.range nty).flatMap fun tiy =>
      (List.range nbx).flatMap fun bix =>
        (List.range ntx).flatMap fun tix =>
          threadPairs (biy * nty + tiy) (nty * nby) (bix * ntx + tix) (ntx * nbx) E L

/-- A single store `out[idx] = v` into the output buffer. -/
def writeCell (out : Nat → DType) (idx : Nat) (v : DType) : Nat → DType :=
  fun j => if j = idx then v else out j

/-- `lhsoff` of `SDDMMCooKernel`: base pointer of the source-feature window of
edge `ty`, or the null sentinel when the operator ignores its lhs. -/
def cooLhsOff (a : CooArgs) (ty : Nat) : Option (Nat → DType) :=
  if a.op.use_lhs then some (fun i => a.ufeat (a.row ty * a.ufeat_len + i)) else none

/-- `rhsoff` of `SDDMMCooKernel`: base pointer of the destination-feature window
of edge `ty`, or the null sentinel when the operator ignores its rhs. -/
def cooRhsOff (a : CooArgs) (ty : Nat) : Option (Nat → DType) :=
  if a.op.use_rhs then some (fun i => a.vfeat (a.col ty * a.vfeat_len + i)) else none

/-- `eid` of `SDDMMCooKernel`: the output row of edge `ty`, remapped through
`edge_map` exactly when the `UseIdx` specialization is chosen. -/
def sddmmCooEid (a : CooArgs) (ty : Nat) : Nat :=
  if a.useIdx then a.edge_map ty else ty

/-- The value `val` computed by `SDDMMCooKernel` for edge `ty` and output
position `tx`: `BinaryOp::Call(lhsoff + lhs_add*reduce_size,
rhsoff + rhs_add*reduce_size, reduce_size)` with `lhs_add`/`rhs_add` read from
the offset tables on the `UseBcast` path and equal to `tx` otherwise. -/
def sddmmCooBody (a : CooArgs) (ty tx : Nat) : DType :=
  a.op.Call
    (ptrAdd (cooLhsOff a ty) ((if a.useBcast then a.ubcast_off tx else tx) * a.reduce_size))
    (ptrAdd (cooRhsOff a ty) ((if a.useBcast then a.vbcast_off tx else tx) * a.reduce_size))
    a.reduce_size

/-- One launch of `SDDMMCooKernel` on a grid of `nbx*nby` blocks of `ntx*nty`
threads: every unit runs its strided loops, each visit storing the computed
value at `out[eid*out_len + tx]`. -/
def runSDDMMCoo (a : CooArgs) (ntx nty nbx nby : Nat) (out0 : Nat → DType) : Nat → DType :=
  (gridPairs ntx nty nbx nby a.E a.out_len).foldl
    (fun out r => writeCell out (sddmmCooEid a r.1 * a.out_len + r.2) (sddmmCooBody a r.1 r.2))
    out0

/-- The `while (lo < hi)` loop of `BinarySearchSrc`, with explicit fuel (any
fuel at least the initial interval length gives the fixpoint of the loop). -/
def bsLoop (array : Nat → Nat) (eid : Nat) : Nat → Nat → Nat → Nat
  | 0, lo, _ => lo
  | fuel + 1, lo, hi =>
    if lo < hi then
      if array ((lo + hi) / 2) ≤ eid then bsLoop array eid fuel ((lo + hi) / 2 + 1) hi
      else bsLoop array eid fuel lo ((lo + hi) / 2)
    else lo

/-- `BinarySearchSrc(array, length, eid)`: binary search of the row-offset
array for the source node of edge `eid`. -/
def binarySearchSrc (array : Nat → Nat) (length eid : Nat) : Nat :=
  let hi := bsLoop array eid length 0 (length - 1)
  if array hi = eid then hi else hi - 1

/-- `lhsoff` of `SDDMMCsrKernel`: the source node is recovered with
`BinarySearchSrc(indptr, N + 1, ty)`. -/
def csrLhsOff (a : CsrArgs) (ty : Nat) : Option (Nat → DType) :=
  if a.op.use_lhs then
    some (fun i => a.ufeat (binarySearchSrc a.indptr (a.N + 1) ty * a.ufeat_len + i))
  else none

/-- `rhsoff` of `SDDMMCsrKernel`: the destination node is `indices[ty]`. -/
def csrRhsOff (a : CsrArgs) (ty : Nat) : Option (Nat → DType) :=
  if a.op.use_rhs then some (fun i => a.vfeat (a.indices ty * a.vfeat_len + i)) else none

/-- `eid` of `SDDMMCsrKernel`. -/
def sddmmCsrEid (a : CsrArgs) (ty : Nat) : Nat :=
  if a.useIdx then a.edge_map ty else ty

/-- The value computed by `SDDMMCsrKernel` for edge `ty` and position `tx`. -/
def sddmmCsrBody (a : CsrArgs) (ty tx : Nat) : DType :=
  a.op.Call
    (ptrAdd (csrLhsOff a ty) ((if a.useBcast then a.ubcast_off tx else tx) * a.reduce_size))
    (ptrAdd (csrRhsOff a ty) ((if a.useBcast then a.vbcast_off tx else tx) * a.reduce_size))
    a.reduce_size

/-- One launch of `SDDMMCsrKernel`, analogous to `runSDDMMCoo`. -/
def runSDDMMCsr (a : CsrArgs) (ntx nty nbx nby : Nat) (out0 : Nat → DType) : Nat → DType :=
  (gridPairs ntx nty nbx nby a.E a.out_len).foldl
    (fun out r => writeCell out (sddmmCsrEid a r.1 * a.out_len + r.2) (sddmmCsrBody a r.1 r.2))
    out0

/-- The COO arguments obtained by pairing a CSR argument pack with explicit
per-edge endpoint arrays; used to compare the two kernels on one edge set. -/
def cooView (b : CsrArgs) (row col : Nat → Nat) : CooArgs :=
  { op := b.op, ufeat := b.ufeat, vfeat := b.vfeat, row := row, col := col,
    edge_map := b.edge_map, useBcast := b.useBcast, useIdx := b.useIdx,
    ubcast_off := b.ubcast_off, vbcast_off := b.vbcast_off,
    E := b.E, reduce_size := b.reduce_size, ufeat_len := b.ufeat_len,
    vfeat_len := b.vfeat_len, out_len := b.out_len }

/-- Modelled from the spec: the operator catalog (`functor.cuh`) is external to
this header; this is the elementwise-multiply operator used by the end-to-end
example of the spec, reading one element from each side of the window. -/
def mulOp : BinaryOp where
  use_lhs := true
  use_rhs := true
  Call := fun l r _ => (l.getD (fun _ => 0)) 0 * (r.getD (fun _ => 0)) 0

/-- Modelled from the spec: a "copy destination feature" operator that ignores
its lhs entirely (`use_lhs = false`). -/
def copyRhsOp : BinaryOp where
  use_lhs := false
  use_rhs := true
  Call := fun _ r _ => (r.getD (fun _ => 0)) 0

/-- A freshly zeroed output buffer. -/
def zeroBuf : Nat → DType := fun _ => 0

/-- The identity index map. -/
def idMap : Nat → Nat := fun e => e

/-- Source features `[[1,2],[3,4]]` of the end-to-end example, row-major. -/
def exU : Nat → DType := fun i => [1, 2, 3, 4].getD i 0

/-- Destination features `[[10,20],[30,40]]` of the end-to-end example. -/
def exV : Nat → DType := fun i => [10, 20, 30, 40].getD i 0

/-- Edge sources `row = [0,0,1]` of the end-to-end example. -/
def exRow : Nat → Nat := fun e => [0, 0, 1].getD e 0

/-- Edge destinations `col = [0,1,1]` of the end-to-end example. -/
def exCol : Nat → Nat := fun e => [0, 1, 1].getD e 0

/-- The end-to-end example as COO kernel arguments: N=2 sources, M=2
destinations, 3 edges, elementwise multiply, `reduce_size = 1`, `out_len = 2`,
no permutation, no broadcasting. -/
def exArgs : CooArgs where
  op := mulOp
  ufeat := exU
  vfeat := exV
  row := exRow
  col := exCol
  edge_map := idMap
  useBcast := false
  useIdx := false
  ubcast_off := idMap
  vbcast_off := idMap
  E := 3
  reduce_size := 1
  ufeat_len := 2
  vfeat_len := 2
  out_len := 2

/-- The same edge set in compressed form: `indptr = [0,2,3]`, `indices = [0,1,1]`. -/
def exCsr : CsrArgs where
  op := mulOp
  ufeat := exU
  vfeat := exV
  indptr := fun i => [0, 2, 3].getD i 3
  indices := exCol
  edge_map := idMap
  useBcast := false
  useIdx := false
  ubcast_off := idMap
  vbcast_off := idMap
  N := 2
  E := 3
  reduce_size := 1
  ufeat_len := 2
  vfeat_len := 2
  out_len := 2

/-- The example with the permutation `edge_map = [2,0,1]` switched on. -/
def permArgs : CooArgs :=
  { exArgs with edge_map := fun e => [2, 0, 1].getD e 0, useIdx := true }

/-- The example with the lhs-ignoring copy operator. -/
def copyArgs : CooArgs :=
  { exArgs with op := copyRhsOp }

/-- The compressed example with the lhs-ignoring copy operator. -/
def copyCsr : CsrArgs :=
  { exCsr with op := copyRhsOp }

/-- The row-pointer array `[0,2,2,5]` of the binary-search test of the spec
(N=3, E=5, middle row empty). -/
def exRowPtr : Nat → Nat := fun i => [0, 2, 2, 5].getD i 5

/-! Counting lemmas for the strided loops. -/

lemma mem_stridedIdx {s e : Nat} :
    ∀ {fuel i bound : Nat}, e ∈ stridedIdx fuel i s bound →
      i ≤ e ∧ e < bound ∧ (e - i) % s = 0 := by
  intro fuel
  induction fuel with
  | zero => intro i bound h; simp [stridedIdx] at h
  | succ fuel ih =>
    intro i bound h
    simp only [stridedIdx] at h
    by_cases hib : i < bound
    · rw [if_pos hib] at h
      rcases List.mem_cons.mp h with h | h
      · subst h; simp [hib]
      · obtain ⟨h1, h2, h3⟩ := ih h
        refine ⟨by omega, h2, ?_⟩
        have hx : e - i = (e - (i + s)) + s := by omega
        rw [hx, Nat.add_mod_right]
        exact h3
    · rw [if_neg hib] at h; simp at h

lemma count_stridedIdx {s : Nat} (e : Nat) (hs : 0 < s) :
    ∀ fuel i bound, bound ≤ i + fuel * s →
      (stridedIdx fuel i s bound).count e =
        if i ≤ e ∧ e < bound ∧ (e - i) % s = 0 then 1 else 0 := by
  intro fuel
  induction fuel with
  | zero =>
    intro i bound hf
    simp only [stridedIdx, List.count_nil]
    rw [if_neg (by omega)]
  | succ fuel ih =>
    intro i bound hf
    rw [Nat.succ_mul] at hf
    simp only [stridedIdx]
    by_cases hib : i < bound
    · rw [if_pos hib, List.count_cons, ih (i + s) bound (by omega)]
      by_cases hei : i = e
      · subst hei
        have hzero : (i - i) % s = 0 := by simp
        rw [if_neg (by omega)]
        simp [hib, hzero]
      · have hiff : (i + s ≤ e ∧ e < bound ∧ (e - (i + s)) % s = 0) ↔
            (i ≤ e ∧ e < bound ∧ (e - i) % s = 0) := by
          constructor
          · rintro ⟨h1, h2, h3⟩
            refine ⟨by omega, h2, ?_⟩
            have hx : e - i = (e - (i + s)) + s := by omega
            rw [hx, Nat.add_mod_right]; exact h3
          · rintro ⟨h1, h2, h3⟩
            have hge : i + s ≤ e := by
              rcases Nat.lt_or_ge (e - i) s with h4 | h4
              · rw [Nat.mod_eq_of_lt h4] at h3; omega
              · omega
            refine ⟨hge, h2, ?_⟩
            have hx : e - i = (e - (i + s)) + s := by omega
            rw [hx, Nat.add_mod_right] at h3; exact h3
        rw [if_congr hiff rfl rfl]
        have hne : (i == e) = false := by simp [hei]
        simp [hne]
    · rw [if_neg hib, if_neg (by omega)]
      simp

lemma count_stridedIdx_init {s : Nat} (e init bound : Nat) (hs : 0 < s) (hinit : init < s) :
    (stridedIdx bound init s bound).count e =
      if init = e % s ∧ e < bound then 1 else 0 := by
  have hfuel : bound ≤ init + bound * s := by
    have h1 : bound * 1 ≤ bound * s := Nat.mul_le_mul_left bound hs
    omega
  rw [count_stridedIdx e hs bound init bound hfuel]
  congr 1
  simp only [eq_iff_iff]
  constructor
  · rintro ⟨h1, h2, h3⟩
    refine ⟨?_, h2⟩
    obtain ⟨k, hk⟩ := Nat.dvd_of_mod_eq_zero h3
    have he : e = init + s * k := by omega
    rw [he, Nat.add_mul_mod_self_left, Nat.mod_eq_of_lt hinit]
  · rintro ⟨h1, h2⟩
    subst h1
    refine ⟨Nat.mod_le e s, h2, ?_⟩
    have hx : e - e % s = s * (e / s) := by
      have h3 := Nat.div_add_mod e s
      omega
    rw [hx, Nat.mul_mod_right]

/-! Indicator sums: the per-block thread indices `b * bd + t` enumerate
`[0, gd * bd)` exactly once across the grid. -/

lemma sum_indicator_block (bd : Nat) (c m : Nat) :
    ((List.range bd).map (fun t => if c + t = m then 1 else 0)).sum =
      if c ≤ m ∧ m < c + bd then 1 else 0 := by
  induction bd with
  | zero =>
    simp only [List.range_zero, List.map_nil, List.sum_nil]
    rw [if_neg (by omega)]
  | succ bd ih =>
    rw [List.range_succ, List.map_append, List.sum_append, ih]
    simp only [List.map_cons, List.map_nil, List.sum_cons, List.sum_nil]
    split_ifs <;> omega

lemma sum_indicator_grid (gd bd m : Nat) :
    ((List.range gd).map
      (fun b => ((List.range bd).map (fun t => if b * bd + t = m then 1 else 0)).sum)).sum =
      if m < gd * bd then 1 else 0 := by
  induction gd with
  | zero => simp
  | succ gd ih =>
    rw [List.range_succ, List.map_append, List.sum_append, ih]
    simp only [List.map_cons, List.map_nil, List.sum_cons, List.sum_nil]
    rw [sum_indicator_block bd (gd * bd) m, Nat.succ_mul]
    split_ifs <;> omega

lemma axis_sum_count (bd gd bound e : Nat) (hbd : 0 < bd) (hgd : 0 < gd) (he : e < bound) :
    ((List.range gd).map
      (fun b => ((List.range bd).map
        (fun t => (stridedIdx bound (b * bd + t) (bd * gd) bound).count e)).sum)).sum = 1 := by
  have hs : 0 < bd * gd := Nat.mul_pos hbd hgd
  have hrw : ((List.range gd).map
      (fun b => ((List.range bd).map
        (fun t => (stridedIdx bound (b * bd + t) (bd * gd) bound).count e)).sum)).sum =
      ((List.range gd).map
        (fun b => ((List.range bd).map
          (fun t => if b * bd + t = e % (bd * gd) then 1 else 0)).sum)).sum := by
    apply congrArg
    apply List.map_congr_left
    intro b hb
    apply congrArg
    apply List.map_congr_left
    intro t ht
    rw [List.mem_range] at hb ht
    have hinit : b * bd + t < bd * gd := by
      have h1 : b * bd + t < (b + 1) * bd := by rw [Nat.succ_mul]; omega
      have h2 : (b + 1) * bd ≤ gd * bd := Nat.mul_le_mul_right bd (by omega)
      have h3 : gd * bd = bd * gd := Nat.mul_comm gd bd
      omega
    rw [count_stridedIdx_init e _ bound hs hinit]
    congr 1
    simp [he]
  rw [hrw, sum_indicator_grid gd bd (e % (bd * gd))]
  rw [if_pos]
  have := Nat.mod_lt e hs
  have h3 : gd * bd = bd * gd := Nat.mul_comm gd bd
  omega

/-! Counting `(ty, tx)` pairs across the whole grid. -/

lemma count_pair_map (ty e p : Nat) (l : List Nat) :
    ((l.map (fun tx => (ty, tx))).count (e, p)) = if ty = e then l.count p else 0 := by
  induction l with
  | nil => simp
  | cons x l ih =>
    simp only [List.map_cons, List.count_cons, ih]
    by_cases h1 : ty = e <;> by_cases h2 : x = p <;> simp [h1, h2]

lemma count_flatMap_pair (yl xl : List Nat) (e p : Nat) :
    (yl.flatMap (fun ty => xl.map (fun tx => (ty, tx)))).count (e, p) =
      yl.count e * xl.count p := by
  induction yl with
  | nil => simp
  | cons y yl ih =>
    simp only [List.flatMap_cons, List.count_append, ih, List.count_cons]
    rw [count_pair_map]
    by_cases h : y = e
    · subst h
      simp only [beq_self_eq_true, if_pos rfl, if_true]
      ring
    · have hb : (y == e) = false := by simp [h]
      simp [h, hb]

lemma count_threadPairs (e p y0 sy x0 sx E L : Nat) :
    (threadPairs y0 sy x0 sx E L).count (e, p) =
      (stridedIdx E y0 sy E).count e * (stridedIdx L x0 sx L).count p := by
  unfold threadPairs
  exact count_flatMap_pair _ _ e p

lemma sum_grid_factor (gy bdy gx bdx : Nat) (cy cx : Nat → Nat → Nat) :
    ((List.range gy).map (fun biy =>
      ((List.range bdy).map (fun tiy =>
        ((List.range gx).map (fun bix =>
          ((List.range bdx).map (fun tix => cy biy tiy * cx bix tix)).sum)).sum)).sum)).sum =
    ((List.range gy).map (fun biy => ((List.range bdy).map (fun tiy => cy biy tiy)).sum)).sum *
    ((List.range gx).map (fun bix => ((List.range bdx).map (fun tix => cx bix tix)).sum)).sum := by
  have h2 : ((List.range gy).map (fun biy =>
      ((List.range bdy).map (fun tiy =>
        ((List.range gx).map (fun bix =>
          ((List.range bdx).map (fun tix => cy biy tiy * cx bix tix)).sum)).sum)).sum)).sum =
      ((List.range gy).map (fun biy =>
        ((List.range bdy).map (fun tiy => cy biy tiy *
          ((List.range gx).map (fun bix =>
            ((List.range bdx).map (fun tix => cx bix tix)).sum)).sum)).sum)).sum := by
    apply congrArg
    apply List.map_congr_left
    intro biy _
    apply congrArg
    apply List.map_congr_left
    intro tiy _
    rw [← List.sum_map_mul_left]
    apply congrArg
    apply List.map_congr_left
    intro bix _
    exact List.sum_map_mul_left _ _ _
  rw [h2]
  have h3 : ((List.range gy).map (fun biy =>
      ((List.range bdy).map (fun tiy => cy biy tiy *
        ((List.range gx).map (fun bix =>
          ((List.range bdx).map (fun tix => cx bix tix)).sum)).sum)).sum)).sum =
      ((List.range gy).map (fun biy =>
        ((List.range bdy).map (fun tiy => cy biy tiy)).sum *
        ((List.range gx).map (fun bix =>
          ((List.range bdx).map (fun tix => cx bix tix)).sum)).sum)).sum := by
    apply congrArg
    apply List.map_congr_left
    intro biy _
    exact List.sum_map_mul_right _ _ _
  rw [h3]
  exact List.sum_map_mul_right _ _ _

lemma count_gridPairs (ntx nty nbx nby E L e p : Nat)
    (hx : 0 < ntx) (hy : 0 < nty) (hbx : 0 < nbx) (hby : 0 < nby)
    (he : e < E) (hp : p < L) :
    (gridPairs ntx nty nbx nby E L).count (e, p) = 1 := by
  unfold gridPairs
  simp only [List.count_flatMap, Function.comp_def]
  simp only [count_threadPairs]
  rw [sum_grid_factor nby nty nbx ntx
    (fun b t => (stridedIdx E (b * nty + t) (nty * nby) E).count e)
    (fun b t => (stridedIdx L (b * ntx + t) (ntx * nbx) L).count p)]
  rw [axis_sum_count nty nby E e hy hby he, axis_sum_count ntx nbx L p hx hbx hp]

lemma mem_threadPairs {r : Nat × Nat} {y0 sy x0 sx E L : Nat}
    (h : r ∈ threadPairs y0 sy x0 sx E L) : r.1 < E ∧ r.2 < L := by
  unfold threadPairs at h
  rw [List.mem_flatMap] at h
  obtain ⟨ty, hty, hr⟩ := h
  rw [List.mem_map] at hr
  obtain ⟨tx, htx, hrr⟩ := hr
  subst hrr
  exact ⟨(mem_stridedIdx hty).2.1, (mem_stridedIdx htx).2.1⟩

lemma mem_gridPairs {r : Nat × Nat} {ntx nty nbx nby E L : Nat}
    (h : r ∈ gridPairs ntx nty nbx nby E L) : r.1 < E ∧ r.2 < L := by
  unfold gridPairs at h
  simp only [List.mem_flatMap] at h
  obtain ⟨biy, _, tiy, _, bix, _, tix, _, hr⟩ := h
  exact mem_threadPairs hr

lemma count_map_inj_on (l : List (Nat × Nat)) (f : Nat × Nat → Nat) (q : Nat × Nat)
    (h : ∀ r ∈ l, f r = f q → r = q) : (l.map f).count (f q) = l.count q := by
  induction l with
  | nil => rfl
  | cons r l ih =>
    simp only [List.map_cons, List.count_cons]
    rw [ih (fun x hx => h x (List.mem_cons_of_mem _ hx))]
    by_cases hrq : r = q
    · subst hrq
      simp
    · have h1 : (f r == f q) = false := by
        simp only [beq_eq_false_iff_ne, ne_eq]
        intro hc
        exact hrq (h r (List.mem_cons_self r l) hc)
      have h2 : (r == q) = false := by simp [hrq]
      rw [h1, h2]

/-! Folding single-cell stores. -/

lemma foldl_write_notin (idxf : Nat × Nat → Nat) (valf : Nat × Nat → DType) (t : Nat) :
    ∀ (l : List (Nat × Nat)) (out : Nat → DType), (∀ r ∈ l, idxf r ≠ t) →
      (l.foldl (fun o r => writeCell o (idxf r) (valf r)) out) t = out t := by
  intro l
  induction l with
  | nil => intro out _; rfl
  | cons r l ih =>
    intro out h
    simp only [List.foldl_cons]
    rw [ih _ (fun x hx => h x (List.mem_cons_of_mem r hx))]
    unfold writeCell
    rw [if_neg (fun hc => (h r (List.mem_cons_self r l)) hc.symm)]

lemma foldl_write_value (idxf : Nat × Nat → Nat) (valf : Nat × Nat → DType) (q : Nat × Nat) :
    ∀ (l : List (Nat × Nat)) (out : Nat → DType),
      l.count q = 1 → (∀ r ∈ l, idxf r = idxf q → r = q) →
      (l.foldl (fun o r => writeCell o (idxf r) (valf r)) out) (idxf q) = valf q := by
  intro l
  induction l with
  | nil => intro out hc _; simp at hc
  | cons r l ih =>
    intro out hc hinj
    rw [List.count_cons] at hc
    simp only [List.foldl_cons]
    by_cases hrq : r = q
    · subst hrq
      have hc0 : l.count r = 0 := by
        simp at hc
        omega
      rw [foldl_write_notin]
      · unfold writeCell
        rw [if_pos rfl]
      · intro x hx hix
        have hxq : x = r := hinj x (List.mem_cons_of_mem _ hx) hix
        subst hxq
        exact absurd hx (List.count_eq_zero.mp hc0)
    · have hb : (r == q) = false := by simp [hrq]
      rw [hb] at hc
      simp at hc
      exact ih _ (by omega) (fun x hx => hinj x (List.mem_cons_of_mem _ hx))

lemma rowcol_inj {a b c d L : Nat} (hb : b < L) (hd : d < L) (h : a * L + b = c * L + d) :
    a = c ∧ b = d := by
  have h1 : (a * L + b) % L = b := by
    rw [Nat.mul_comm a L, Nat.mul_add_mod]
    exact Nat.mod_eq_of_lt hb
  have h2 : (c * L + d) % L = d := by
    rw [Nat.mul_comm c L, Nat.mul_add_mod]
    exact Nat.mod_eq_of_lt hd
  have hbd : b = d := by rw [← h1, ← h2, h]
  subst hbd
  have hL : 0 < L := by omega
  have hac : a * L = c * L := by omega
  exact ⟨Nat.eq_of_mul_eq_mul_right hL hac, rfl⟩

lemma foldl_grid_value (eidF : Nat → Nat) (valF : Nat → Nat → DType)
    (ntx nty nbx nby E L e p : Nat) (out0 : Nat → DType)
    (hx : 0 < ntx) (hy : 0 < nty) (hbx : 0 < nbx) (hby : 0 < nby)
    (he : e < E) (hp : p < L)
    (hinj : ∀ i, i < E → ∀ j, j < E → eidF i = eidF j → i = j) :
    ((gridPairs ntx nty nbx nby E L).foldl
      (fun out r => writeCell out (eidF r.1 * L + r.2) (valF r.1 r.2)) out0)
      (eidF e * L + p) = valF e p := by
  have hmain := foldl_write_value (fun r => eidF r.1 * L + r.2) (fun r => valF r.1 r.2) (e, p)
    (gridPairs ntx nty nbx nby E L) out0
    (count_gridPairs ntx nty nbx nby E L e p hx hy hbx hby he hp)
    (by
      intro r hr hidx
      obtain ⟨hr1, hr2⟩ := mem_gridPairs hr
      obtain ⟨heq, hpq⟩ := rowcol_inj hr2 hp hidx
      have hre : r.1 = e := hinj r.1 hr1 e he heq
      obtain ⟨r1, r2⟩ := r
      rw [Prod.mk.injEq]
      exact ⟨hre, hpq⟩)
  exact hmain

/-- Core per-cell correctness of a COO launch: the final buffer holds, at
`eid(e)*out_len + p`, exactly the value the kernel body computes for `(e, p)`. -/
lemma run_value_coo (a : CooArgs) (ntx nty nbx nby e p : Nat) (out0 : Nat → DType)
    (hx : 0 < ntx) (hy : 0 < nty) (hbx : 0 < nbx) (hby : 0 < nby)
    (he : e < a.E) (hp : p < a.out_len)
    (hinj : ∀ i, i < a.E → ∀ j, j < a.E → sddmmCooEid a i = sddmmCooEid a j → i = j) :
    runSDDMMCoo a ntx nty nbx nby out0 (sddmmCooEid a e * a.out_len + p) =
      sddmmCooBody a e p :=
  foldl_grid_value (sddmmCooEid a) (sddmmCooBody a) ntx nty nbx nby a.E a.out_len e p out0
    hx hy hbx hby he hp hinj

/-- Core per-cell correctness of a CSR launch. -/
lemma run_value_csr (a : CsrArgs) (ntx nty nbx nby e p : Nat) (out0 : Nat → DType)
    (hx : 0 < ntx) (hy : 0 < nty) (hbx : 0 < nbx) (hby : 0 < nby)
    (he : e < a.E) (hp : p < a.out_len)
    (hinj : ∀ i, i < a.E → ∀ j, j < a.E → sddmmCsrEid a i = sddmmCsrEid a j → i = j) :
    runSDDMMCsr a ntx nty nbx nby out0 (sddmmCsrEid a e * a.out_len + p) =
      sddmmCsrBody a e p :=
  foldl_grid_value (sddmmCsrEid a) (sddmmCsrBody a) ntx nty nbx nby a.E a.out_len e p out0
    hx hy hbx hby he hp hinj

/-! Correctness of `BinarySearchSrc`. -/

lemma bsLoop_spec (array : Nat → Nat) (eid N : Nat)
    (mono : ∀ j, j ≤ N → ∀ i, i ≤ j → array i ≤ array j) :
    ∀ fuel lo hi, hi - lo < fuel → lo ≤ hi → hi ≤ N →
      (∀ j, j < lo → array j ≤ eid) → (eid < array hi ∨ hi = N) →
      ((∀ j, j < bsLoop array eid fuel lo hi → array j ≤ eid) ∧
        (eid < array (bsLoop array eid fuel lo hi) ∨ bsLoop array eid fuel lo hi = N) ∧
        bsLoop array eid fuel lo hi ≤ N) := by
  intro fuel
  induction fuel with
  | zero =>
    intro lo hi hf _ _ _ _
    exact absurd hf (by omega)
  | succ fuel ih =>
    intro lo hi hf hlohi hhiN hlo hhi
    simp only [bsLoop]
    by_cases hlt : lo < hi
    · rw [if_pos hlt]
      have hmid1 : lo ≤ (lo + hi) / 2 := by omega
      have hmid2 : (lo + hi) / 2 < hi := by omega
      by_cases hc : array ((lo + hi) / 2) ≤ eid
      · rw [if_pos hc]
        refine ih ((lo + hi) / 2 + 1) hi (by omega) (by omega) hhiN ?_ hhi
        intro j hj
        by_cases hjlo : j < lo
        · exact hlo j hjlo
        · exact (mono ((lo + hi) / 2) (by omega) j (by omega)).trans hc
      · rw [if_neg hc]
        exact ih lo ((lo + hi) / 2) (by omega) (by omega) (by omega) hlo
          (Or.inl (by omega))
    · rw [if_neg hlt]
      have hEq : lo = hi := by omega
      subst hEq
      exact ⟨hlo, hhi, hhiN⟩

/-- Characterization of `BinarySearchSrc` on a well-formed row-pointer array:
for `eid < E` it returns the row whose half-open edge range contains `eid`. -/
lemma binarySearchSrc_spec (array : Nat → Nat) (N E eid : Nat)
    (mono : ∀ j, j ≤ N → ∀ i, i ≤ j → array i ≤ array j)
    (h0 : array 0 = 0) (hN : array N = E) (he : eid < E) :
    binarySearchSrc array (N + 1) eid < N ∧
    array (binarySearchSrc array (N + 1) eid) ≤ eid ∧
    eid < array (binarySearchSrc array (N + 1) eid + 1) := by
  unfold binarySearchSrc
  simp only [Nat.add_sub_cancel]
  have hN0 : 0 < N := by
    rcases Nat.eq_zero_or_pos N with h | h
    · rw [h, h0] at hN
      omega
    · exact h
  obtain ⟨hbelow, hor, hrN⟩ := bsLoop_spec array eid N mono (N + 1) 0 N (by omega) (by omega)
    (by omega) (by omega) (Or.inr rfl)
  have hne : ¬ array (bsLoop array eid (N + 1) 0 N) = eid := by
    intro hEq
    rcases hor with h | h
    · omega
    · rw [h, hN] at hEq
      omega
  rw [if_neg hne]
  have hr1 : 1 ≤ bsLoop array eid (N + 1) 0 N := by
    rcases Nat.eq_zero_or_pos (bsLoop array eid (N + 1) 0 N) with h | h
    · rcases hor with h2 | h2
      · rw [h, h0] at h2
        omega
      · omega
    · exact h
  refine ⟨by omega, hbelow _ (by omega), ?_⟩
  have hx : bsLoop array eid (N + 1) 0 N - 1 + 1 = bsLoop array eid (N + 1) 0 N := by omega
  rw [hx]
  rcases hor with h | h
  · exact h
  · rw [h, hN]
    exact he

/-- On a monotone row-pointer array, the containing row of an edge id is
unique. -/
lemma rowptr_unique (array : Nat → Nat) (N eid : Nat)
    (mono : ∀ j, j ≤ N → ∀ i, i ≤ j → array i ≤ array j)
    {i j : Nat} (hi : i < N) (hj : j < N)
    (h1 : array i ≤ eid) (h2 : eid < array (i + 1))
    (h3 : array j ≤ eid) (h4 : eid < array (j + 1)) : i = j := by
  by_contra hne
  rcases Nat.lt_or_ge i j with h | h
  · have hc : array (i + 1) ≤ array j := mono j (by omega) (i + 1) (by omega)
    omega
  · have hji : j < i := by omega
    have hc : array (j + 1) ≤ array i := mono i (by omega) (j + 1) (by omega)
    omega

/-- `BinarySearchSrc` agrees with any index satisfying the containment
property. -/
lemma binarySearchSrc_eq (array : Nat → Nat) (N E eid i : Nat)
    (mono : ∀ j, j ≤ N → ∀ i, i ≤ j → array i ≤ array j)
    (h0 : array 0 = 0) (hN : array N = E) (he : eid < E)
    (hi : i < N) (hlo : array i ≤ eid) (hhi : eid < array (i + 1)) :
    binarySearchSrc array (N + 1) eid = i := by
  obtain ⟨ha, hb, hc⟩ := binarySearchSrc_spec array N E eid mono h0 hN he
  exact rowptr_unique array N eid mono ha hi hb hc hlo hhi

/-! Spelling out the kernel body as the window formula of the spec. -/

lemma sddmmCooBody_eq (a : CooArgs) (e p : Nat) :
    sddmmCooBody a e p =
      a.op.Call
        (if a.op.use_lhs then some (fun i => a.ufeat (a.row e * a.ufeat_len +
          (if a.useBcast then a.ubcast_off p else p) * a.reduce_size + i)) else none)
        (if a.op.use_rhs then some (fun i => a.vfeat (a.col e * a.vfeat_len +
          (if a.useBcast then a.vbcast_off p else p) * a.reduce_size + i)) else none)
        a.reduce_size := by
  unfold sddmmCooBody cooLhsOff cooRhsOff ptrAdd
  by_cases h1 : a.op.use_lhs <;> by_cases h2 : a.op.use_rhs <;>
    simp [h1, h2, Nat.add_assoc]

lemma sddmmCsrBody_eq (a : CsrArgs) (e p : Nat) :
    sddmmCsrBody a e p =
      a.op.Call
        (if a.op.use_lhs then some (fun i => a.ufeat
          (binarySearchSrc a.indptr (a.N + 1) e * a.ufeat_len +
          (if a.useBcast then a.ubcast_off p else p) * a.reduce_size + i)) else none)
        (if a.op.use_rhs then some (fun i => a.vfeat (a.indices e * a.vfeat_len +
          (if a.useBcast then a.vbcast_off p else p) * a.reduce_size + i)) else none)
        a.reduce_size := by
  unfold sddmmCsrBody csrLhsOff csrRhsOff ptrAdd
  by_cases h1 : a.op.use_lhs <;> by_cases h2 : a.op.use_rhs <;>
    simp [h1, h2, Nat.add_assoc]

/-! The claims. -/

/-- C1: for every edge `e < E` and every output position `p < out_len`, each
kernel (coordinate and compressed variant) stores at `out[eid*out_len + p]`
exactly `Call(ufeat + src*ufeat_len + lhs_add*reduce_size,
vfeat + dst*vfeat_len + rhs_add*reduce_size, reduce_size)`, where
`lhs_add`/`rhs_add` are `p` on the identity path and `ubcast_off[p]`/
`vbcast_off[p]` on the broadcast path, `src`/`dst` come from the chosen
endpoint resolver, and the unused side is the null sentinel. -/
theorem sddmm_c1 (a : CooArgs) (b : CsrArgs) (ntx nty nbx nby e p f q : Nat)
    (out0 out1 : Nat → DType)
    (hx : 0 < ntx) (hy : 0 < nty) (hbx : 0 < nbx) (hby : 0 < nby)
    (he : e < a.E) (hp : p < a.out_len)
    (hinj : ∀ i, i < a.E → ∀ j, j < a.E → sddmmCooEid a i = sddmmCooEid a j → i = j)
    (hf : f < b.E) (hq : q < b.out_len)
    (hinj2 : ∀ i, i < b.E → ∀ j, j < b.E → sddmmCsrEid b i = sddmmCsrEid b j → i = j) :
    runSDDMMCoo a ntx nty nbx nby out0 (sddmmCooEid a e * a.out_len + p) =
      a.op.Call
        (if a.op.use_lhs then some (fun i => a.ufeat (a.row e * a.ufeat_len +
          (if a.useBcast then a.ubcast_off p else p) * a.reduce_size + i)) else none)
        (if a.op.use_rhs then some (fun i => a.vfeat (a.col e * a.vfeat_len +
          (if a.useBcast then a.vbcast_off p else p) * a.reduce_size + i)) else none)
        a.reduce_size ∧
    runSDDMMCsr b ntx nty nbx nby out1 (sddmmCsrEid b f * b.out_len + q) =
      b.op.Call
        (if b.op.use_lhs then some (fun i => b.ufeat
          (binarySearchSrc b.indptr (b.N + 1) f * b.ufeat_len +
          (if b.useBcast then b.ubcast_off q else q) * b.reduce_size + i)) else none)
        (if b.op.use_rhs then some (fun i => b.vfeat (b.indices f * b.vfeat_len +
          (if b.useBcast then b.vbcast_off q else q) * b.reduce_size + i)) else none)
        b.reduce_size :=
  ⟨(run_value_coo a ntx nty nbx nby e p out0 hx hy hbx hby he hp hinj).trans
      (sddmmCooBody_eq a e p),
    (run_value_csr b ntx nty nbx nby f q out1 hx hy hbx hby hf hq hinj2).trans
      (sddmmCsrBody_eq b f q)⟩

/-- C1 witness: the theorem instantiated at the concrete example (grid of
1x2 threads, 1x2 blocks), with the window formula evaluated. -/
theorem sddmm_c1_witness :
    runSDDMMCoo exArgs 1 2 1 2 zeroBuf (sddmmCooEid exArgs 1 * exArgs.out_len + 0) = 30 ∧
    runSDDMMCsr exCsr 1 2 1 2 zeroBuf (sddmmCsrEid exCsr 2 * exCsr.out_len + 1) = 160 := by
  obtain ⟨h1, h2⟩ := sddmm_c1 exArgs exCsr 1 2 1 2 1 0 2 1 zeroBuf zeroBuf
    (by decide) (by decide) (by decide) (by decide)
    (by decide) (by decide) (by decide)
    (by decide) (by decide) (by decide)
  exact ⟨h1.trans (by decide), h2.trans (by decide)⟩

/-- C2: for a well-formed row-pointer array (`row_ptr[0] = 0`,
`row_ptr[N] = E`, monotone on `[0, N]`) and any edge `e < E`, the binary-search
resolver returns the unique `i < N` with `row_ptr[i] ≤ e < row_ptr[i+1]`;
empty rows are skipped. -/
theorem sddmm_c2 (rp : Nat → Nat) (N E e : Nat)
    (hmono : ∀ j, j ≤ N → ∀ i, i ≤ j → rp i ≤ rp j)
    (h0 : rp 0 = 0) (hN : rp N = E) (he : e < E) :
    (binarySearchSrc rp (N + 1) e < N ∧
      rp (binarySearchSrc rp (N + 1) e) ≤ e ∧
      e < rp (binarySearchSrc rp (N + 1) e + 1)) ∧
    (∀ i, i < N → rp i ≤ e → e < rp (i + 1) → i = binarySearchSrc rp (N + 1) e) := by
  obtain ⟨h1, h2, h3⟩ := binarySearchSrc_spec rp N E e hmono h0 hN he
  exact ⟨⟨h1, h2, h3⟩, fun i hi hlo hhi => rowptr_unique rp N e hmono hi h1 hlo hhi h2 h3⟩

/-- C2 witness: for `row_ptr = [0,2,2,5]` the resolver maps edges 0,1 to
source 0 and edges 2,3,4 to source 2, skipping the empty row 1; the theorem is
applied at edge 3. -/
theorem sddmm_c2_witness :
    binarySearchSrc exRowPtr 4 0 = 0 ∧ binarySearchSrc exRowPtr 4 1 = 0 ∧
    binarySearchSrc exRowPtr 4 2 = 2 ∧ binarySearchSrc exRowPtr 4 3 = 2 ∧
    binarySearchSrc exRowPtr 4 4 = 2 ∧
    (binarySearchSrc exRowPtr 4 3 < 3 ∧
      exRowPtr (binarySearchSrc exRowPtr 4 3) ≤ 3 ∧
      3 < exRowPtr (binarySearchSrc exRowPtr 4 3 + 1)) := by
  have h := sddmm_c2 exRowPtr 3 5 3 (by decide) (by decide) (by decide) (by decide)
  exact ⟨by decide, by decide, by decide, by decide, by decide, h.1⟩

/-- C4: on any launch geometry with positive block and grid extents on both
axes, the strided two-axis loops visit each `(edge, position)` pair in
`[0, E) x [0, out_len)` exactly once across all execution units, and hence the
output cell `eid*out_len + p` is written exactly once. -/
theorem sddmm_c4 (a : CooArgs) (ntx nty nbx nby e p : Nat)
    (hx : 0 < ntx) (hy : 0 < nty) (hbx : 0 < nbx) (hby : 0 < nby)
    (he : e < a.E) (hp : p < a.out_len)
    (hinj : ∀ i, i < a.E → ∀ j, j < a.E → sddmmCooEid a i = sddmmCooEid a j → i = j) :
    (gridPairs ntx nty nbx nby a.E a.out_len).count (e, p) = 1 ∧
    ((gridPairs ntx nty nbx nby a.E a.out_len).map
      (fun r => sddmmCooEid a r.1 * a.out_len + r.2)).count
      (sddmmCooEid a e * a.out_len + p) = 1 := by
  have h1 := count_gridPairs ntx nty nbx nby a.E a.out_len e p hx hy hbx hby he hp
  refine ⟨h1, ?_⟩
  have h2 := count_map_inj_on (gridPairs ntx nty nbx nby a.E a.out_len)
    (fun r => sddmmCooEid a r.1 * a.out_len + r.2) (e, p)
    (by
      intro r hr hidx
      obtain ⟨hr1, hr2⟩ := mem_gridPairs hr
      obtain ⟨heq, hpq⟩ := rowcol_inj hr2 hp hidx
      have hre : r.1 = e := hinj r.1 hr1 e he heq
      obtain ⟨r1, r2⟩ := r
      rw [Prod.mk.injEq]
      exact ⟨hre, hpq⟩)
  exact h2.trans h1

/-- C4 witness: the theorem applied to the concrete example on a 2x2-thread,
1x1-block grid. -/
theorem sddmm_c4_witness :
    (gridPairs 2 2 1 1 exArgs.E exArgs.out_len).count (2, 1) = 1 ∧
    ((gridPairs 2 2 1 1 exArgs.E exArgs.out_len).map
      (fun r => sddmmCooEid exArgs r.1 * exArgs.out_len + r.2)).count
      (sddmmCooEid exArgs 2 * exArgs.out_len + 1) = 1 :=
  sddmm_c4 exArgs 2 2 1 1 2 1 (by decide) (by decide) (by decide) (by decide)
    (by decide) (by decide) (by decide)

/-- C8 counterexample: on the end-to-end example of the spec the kernel stores 30,
not 20, at output cell 2 (edge 1, position 0): the lhs element is
`ufeat[0] = 1` and the rhs element is `vfeat[1*2+0] = 30`, so the product is
30, refuting `edge 1 → [20, 80]`. -/
theorem sddmm_c8_counterexample :
    runSDDMMCoo exArgs 1 1 1 1 zeroBuf 2 = 30 ∧
    runSDDMMCoo exArgs 1 1 1 1 zeroBuf 2 ≠ 20 := by
  decide

/-- C8 amended: on the end-to-end example the COO kernel produces
edge 0 → `[10, 40]`, edge 1 → `[30, 80]`, edge 2 → `[90, 160]`. -/
theorem sddmm_c8_amended :
    runSDDMMCoo exArgs 1 1 1 1 zeroBuf 0 = 10 ∧
    runSDDMMCoo exArgs 1 1 1 1 zeroBuf 1 = 40 ∧
    runSDDMMCoo exArgs 1 1 1 1 zeroBuf 2 = 30 ∧
    runSDDMMCoo exArgs 1 1 1 1 zeroBuf 3 = 80 ∧
    runSDDMMCoo exArgs 1 1 1 1 zeroBuf 4 = 90 ∧
    runSDDMMCoo exArgs 1 1 1 1 zeroBuf 5 = 160 := by
  decide

lemma cooView_body_eq (b : CsrArgs) (row col : Nat → Nat)
    (hmono : ∀ j, j ≤ b.N → ∀ i, i ≤ j → b.indptr i ≤ b.indptr j)
    (h0 : b.indptr 0 = 0) (hN : b.indptr b.N = b.E)
    (hedge : ∀ e, e < b.E → row e < b.N ∧ b.indptr (row e) ≤ e ∧
      e < b.indptr (row e + 1) ∧ col e = b.indices e)
    (ty tx : Nat) (hty : ty < b.E) :
    sddmmCooBody (cooView b row col) ty tx = sddmmCsrBody b ty tx := by
  obtain ⟨hb1, hb2, hb3, hb4⟩ := hedge ty hty
  have hsrc : binarySearchSrc b.indptr (b.N + 1) ty = row ty :=
    binarySearchSrc_eq b.indptr b.N b.E ty (row ty) hmono h0 hN hty hb1 hb2 hb3
  simp only [sddmmCooBody, sddmmCsrBody, cooLhsOff, csrLhsOff, cooRhsOff, csrRhsOff, cooView]
  rw [hsrc, hb4]

/-- C3: a coordinate and a compressed encoding that describe the same edge set
(per-edge source, destination and edge map agree) produce bit-identical SDDMM
output under the same operator, feature buffers and broadcast descriptor, on
every launch geometry and every initial output buffer. -/
theorem sddmm_c3 (b : CsrArgs) (row col : Nat → Nat)
    (hmono : ∀ j, j ≤ b.N → ∀ i, i ≤ j → b.indptr i ≤ b.indptr j)
    (h0 : b.indptr 0 = 0) (hN : b.indptr b.N = b.E)
    (hedge : ∀ e, e < b.E → row e < b.N ∧ b.indptr (row e) ≤ e ∧
      e < b.indptr (row e + 1) ∧ col e = b.indices e)
    (ntx nty nbx nby : Nat) (out0 : Nat → DType) (idx : Nat) :
    runSDDMMCoo (cooView b row col) ntx nty nbx nby out0 idx =
      runSDDMMCsr b ntx nty nbx nby out0 idx := by
  have hfold : runSDDMMCoo (cooView b row col) ntx nty nbx nby out0 =
      runSDDMMCsr b ntx nty nbx nby out0 := by
    unfold runSDDMMCoo runSDDMMCsr
    apply List.foldl_ext
    intro o r hr
    have hmem := mem_gridPairs hr
    have hty : r.1 < b.E := hmem.1
    rw [cooView_body_eq b row col hmono h0 hN hedge r.1 r.2 hty]
    rfl
  exact congrFun hfold idx

/-- C3 witness: the COO and CSR forms of the concrete example agree cell by
cell. -/
theorem sddmm_c3_witness :
    runSDDMMCoo (cooView exCsr exRow exCol) 1 2 1 2 zeroBuf 2 =
      runSDDMMCsr exCsr 1 2 1 2 zeroBuf 2 :=
  sddmm_c3 exCsr exRow exCol (by decide) (by decide) (by decide) (by decide)
    1 2 1 2 zeroBuf 2

/-- C5: when `lhs_len = rhs_len = out_len`, the identity fast path
(`UseBcast = false`) and the explicit-offset-table path (`UseBcast = true`
with identity tables on `[0, out_len)`) produce identical output for every
edge, position, geometry and initial buffer, on both kernels. -/
theorem sddmm_c5 (a : CooArgs) (b : CsrArgs) (tu tv su sv : Nat → Nat)
    (ha : a.useBcast = false) (hbb : b.useBcast = false)
    (hal : a.ufeat_len = a.out_len) (har : a.vfeat_len = a.out_len)
    (hbl : b.ufeat_len = b.out_len) (hbr : b.vfeat_len = b.out_len)
    (htu : ∀ q, q < a.out_len → tu q = q) (htv : ∀ q, q < a.out_len → tv q = q)
    (hsu : ∀ q, q < b.out_len → su q = q) (hsv : ∀ q, q < b.out_len → sv q = q)
    (ntx nty nbx nby : Nat) (out0 out1 : Nat → DType) (idx jdx : Nat) :
    runSDDMMCoo { a with useBcast := true, ubcast_off := tu, vbcast_off := tv }
        ntx nty nbx nby out0 idx = runSDDMMCoo a ntx nty nbx nby out0 idx ∧
    runSDDMMCsr { b with useBcast := true, ubcast_off := su, vbcast_off := sv }
        ntx nty nbx nby out1 jdx = runSDDMMCsr b ntx nty nbx nby out1 jdx := by
  constructor
  · have hfold : runSDDMMCoo { a with useBcast := true, ubcast_off := tu, vbcast_off := tv }
        ntx nty nbx nby out0 = runSDDMMCoo a ntx nty nbx nby out0 := by
      unfold runSDDMMCoo
      apply List.foldl_ext
      intro o r hr
      have htx : r.2 < a.out_len := (mem_gridPairs hr).2
      have hbody : sddmmCooBody
          { a with useBcast := true, ubcast_off := tu, vbcast_off := tv } r.1 r.2 =
          sddmmCooBody a r.1 r.2 := by
        simp [sddmmCooBody, cooLhsOff, cooRhsOff, ha, htu r.2 htx, htv r.2 htx]
      rw [hbody]
      rfl
    exact congrFun hfold idx
  · have hfold : runSDDMMCsr { b with useBcast := true, ubcast_off := su, vbcast_off := sv }
        ntx nty nbx nby out1 = runSDDMMCsr b ntx nty nbx nby out1 := by
      unfold runSDDMMCsr
      apply List.foldl_ext
      intro o r hr
      have htx : r.2 < b.out_len := (mem_gridPairs hr).2
      have hbody : sddmmCsrBody
          { b with useBcast := true, ubcast_off := su, vbcast_off := sv } r.1 r.2 =
          sddmmCsrBody b r.1 r.2 := by
        simp [sddmmCsrBody, csrLhsOff, csrRhsOff, hbb, hsu r.2 htx, hsv r.2 htx]
      rw [hbody]
      rfl
    exact congrFun hfold jdx

/-- C5 witness: on the concrete example, switching on broadcasting with
identity tables changes nothing. -/
theorem sddmm_c5_witness :
    runSDDMMCoo { exArgs with useBcast := true, ubcast_off := idMap, vbcast_off := idMap }
        1 1 1 1 zeroBuf 3 = runSDDMMCoo exArgs 1 1 1 1 zeroBuf 3 ∧
    runSDDMMCsr { exCsr with useBcast := true, ubcast_off := idMap, vbcast_off := idMap }
        1 1 1 1 zeroBuf 4 = runSDDMMCsr exCsr 1 1 1 1 zeroBuf 4 :=
  sddmm_c5 exArgs exCsr idMap idMap idMap idMap rfl rfl rfl rfl rfl rfl
    (by decide) (by decide) (by decide) (by decide) 1 1 1 1 zeroBuf zeroBuf 3 4

/-- C6: the output row used for writing is `edge_map[e]` when a permutation is
supplied (`UseIdx`) and `e` itself otherwise: the value computed for edge `e`
lands at row `if useIdx then edge_map e else e` of the output. -/
theorem sddmm_c6 (a : CooArgs) (b : CsrArgs) (ntx nty nbx nby e p f q : Nat)
    (out0 out1 : Nat → DType)
    (hx : 0 < ntx) (hy : 0 < nty) (hbx : 0 < nbx) (hby : 0 < nby)
    (he : e < a.E) (hp : p < a.out_len)
    (hinj : ∀ i, i < a.E → ∀ j, j < a.E → sddmmCooEid a i = sddmmCooEid a j → i = j)
    (hf : f < b.E) (hq : q < b.out_len)
    (hinj2 : ∀ i, i < b.E → ∀ j, j < b.E → sddmmCsrEid b i = sddmmCsrEid b j → i = j) :
    runSDDMMCoo a ntx nty nbx nby out0
        ((if a.useIdx then a.edge_map e else e) * a.out_len + p) = sddmmCooBody a e p ∧
    runSDDMMCsr b ntx nty nbx nby out1
        ((if b.useIdx then b.edge_map f else f) * b.out_len + q) = sddmmCsrBody b f q :=
  ⟨run_value_coo a ntx nty nbx nby e p out0 hx hy hbx hby he hp hinj,
    run_value_csr b ntx nty nbx nby f q out1 hx hy hbx hby hf hq hinj2⟩

/-- C6 witness: with `edge_map = [2,0,1]`, the value of edge 0 (10) is written to
output row 2, while row 0 receives the value of edge 1 (30). -/
theorem sddmm_c6_witness :
    runSDDMMCoo permArgs 1 1 1 1 zeroBuf
        ((if permArgs.useIdx then permArgs.edge_map 0 else 0) * permArgs.out_len + 0) = 10 ∧
    runSDDMMCoo permArgs 1 1 1 1 zeroBuf 0 = 30 ∧ (10 : DType) ≠ 30 := by
  obtain ⟨h1, h2⟩ := sddmm_c6 permArgs exCsr 1 1 1 1 0 0 1 1 zeroBuf zeroBuf
    (by decide) (by decide) (by decide) (by decide)
    (by decide) (by decide) (by decide)
    (by decide) (by decide) (by decide)
  exact ⟨h1.trans (by decide), by decide, by decide⟩

/-- C7: an operator with `use_lhs = false` (symmetrically `use_rhs = false`)
never dereferences the unused base pointer — the kernel passes the null
sentinel — and the whole output is independent of the contents of the unused
feature buffer, on both kernels. -/
theorem sddmm_c7 (a : CooArgs) (b : CsrArgs) (u1 u2 v1 v2 w1 w2 z1 z2 : Nat → DType)
    (ntx nty nbx nby : Nat) (out0 out1 out2 out3 : Nat → DType)
    (idx jdx kdx ldx : Nat) :
    (a.op.use_lhs = false →
      (∀ ty, cooLhsOff a ty = none) ∧
      runSDDMMCoo { a with ufeat := u1 } ntx nty nbx nby out0 idx =
        runSDDMMCoo { a with ufeat := u2 } ntx nty nbx nby out0 idx) ∧
    (a.op.use_rhs = false →
      (∀ ty, cooRhsOff a ty = none) ∧
      runSDDMMCoo { a with vfeat := v1 } ntx nty nbx nby out1 jdx =
        runSDDMMCoo { a with vfeat := v2 } ntx nty nbx nby out1 jdx) ∧
    (b.op.use_lhs = false →
      (∀ ty, csrLhsOff b ty = none) ∧
      runSDDMMCsr { b with ufeat := w1 } ntx nty nbx nby out2 kdx =
        runSDDMMCsr { b with ufeat := w2 } ntx nty nbx nby out2 kdx) ∧
    (b.op.use_rhs = false →
      (∀ ty, csrRhsOff b ty = none) ∧
      runSDDMMCsr { b with vfeat := z1 } ntx nty nbx nby out3 ldx =
        runSDDMMCsr { b with vfeat := z2 } ntx nty nbx nby out3 ldx) := by
  refine ⟨fun h => ⟨fun ty => by simp [cooLhsOff, h], ?_⟩,
    fun h => ⟨fun ty => by simp [cooRhsOff, h], ?_⟩,
    fun h => ⟨fun ty => by simp [csrLhsOff, h], ?_⟩,
    fun h => ⟨fun ty => by simp [csrRhsOff, h], ?_⟩⟩
  · have hfold : runSDDMMCoo { a with ufeat := u1 } ntx nty nbx nby out0 =
        runSDDMMCoo { a with ufeat := u2 } ntx nty nbx nby out0 := by
      unfold runSDDMMCoo
      apply List.foldl_ext
      intro o r hr
      have hbody : sddmmCooBody { a with ufeat := u1 } r.1 r.2 =
          sddmmCooBody { a with ufeat := u2 } r.1 r.2 := by
        simp [sddmmCooBody, cooLhsOff, cooRhsOff, h]
      rw [hbody]
      rfl
    exact congrFun hfold idx
  · have hfold : runSDDMMCoo { a with vfeat := v1 } ntx nty nbx nby out1 =
        runSDDMMCoo { a with vfeat := v2 } ntx nty nbx nby out1 := by
      unfold runSDDMMCoo
      apply List.foldl_ext
      intro o r hr
      have hbody : sddmmCooBody { a with vfeat := v1 } r.1 r.2 =
          sddmmCooBody { a with vfeat := v2 } r.1 r.2 := by
        simp [sddmmCooBody, cooLhsOff, cooRhsOff, h]
      rw [hbody]
      rfl
    exact congrFun hfold jdx
  · have hfold : runSDDMMCsr { b with ufeat := w1 } ntx nty nbx nby out2 =
        runSDDMMCsr { b with ufeat := w2 } ntx nty nbx nby out2 := by
      unfold runSDDMMCsr
      apply List.foldl_ext
      intro o r hr
      have hbody : sddmmCsrBody { b with ufeat := w1 } r.1 r.2 =
          sddmmCsrBody { b with ufeat := w2 } r.1 r.2 := by
        simp [sddmmCsrBody, csrLhsOff, csrRhsOff, h]
      rw [hbody]
      rfl
    exact congrFun hfold kdx
  · have hfold : runSDDMMCsr { b with vfeat := z1 } ntx nty nbx nby out3 =
        runSDDMMCsr { b with vfeat := z2 } ntx nty nbx nby out3 := by
      unfold runSDDMMCsr
      apply List.foldl_ext
      intro o r hr
      have hbody : sddmmCsrBody { b with vfeat := z1 } r.1 r.2 =
          sddmmCsrBody { b with vfeat := z2 } r.1 r.2 := by
        simp [sddmmCsrBody, csrLhsOff, csrRhsOff, h]
      rw [hbody]
      rfl
    exact congrFun hfold ldx

/-- C7 witness: with the copy-destination operator, the source-feature pointer
window is the null sentinel and arbitrary garbage in the source-feature buffer
does not change the output. -/
theorem sddmm_c7_witness :
    cooLhsOff copyArgs 0 = none ∧
    runSDDMMCoo { copyArgs with ufeat := fun _ => 999 } 1 1 1 1 zeroBuf 2 =
      runSDDMMCoo { copyArgs with ufeat := fun _ => -5 } 1 1 1 1 zeroBuf 2 ∧
    csrLhsOff copyCsr 0 = none ∧
    runSDDMMCsr { copyCsr with ufeat := fun _ => 999 } 1 1 1 1 zeroBuf 2 =
      runSDDMMCsr { copyCsr with ufeat := fun _ => -5 } 1 1 1 1 zeroBuf 2 := by
  obtain ⟨hc1, hc2, hc3, hc4⟩ := sddmm_c7 copyArgs copyCsr
    (fun _ => 999) (fun _ => -5) zeroBuf zeroBuf (fun _ => 999) (fun _ => -5) zeroBuf zeroBuf
    1 1 1 1 zeroBuf zeroBuf zeroBuf zeroBuf 2 0 2 0
  obtain ⟨hn1, hr1⟩ := hc1 rfl
  obtain ⟨hn3, hr3⟩ := hc3 rfl
  exact ⟨hn1 0, hr1, hn3 0, hr3⟩

/-- C9: each output cell is assigned outright — the value stored at
`eid*out_len + p` does not depend on the prior contents of the output buffer, so
re-running on identical inputs from freshly zeroed buffers yields identical
output. -/
theorem sddmm_c9 (a : CooArgs) (b : CsrArgs) (ntx nty nbx nby e p f q : Nat)
    (out0 out1 out2 out3 : Nat → DType)
    (hx : 0 < ntx) (hy : 0 < nty) (hbx : 0 < nbx) (hby : 0 < nby)
    (he : e < a.E) (hp : p < a.out_len)
    (hinj : ∀ i, i < a.E → ∀ j, j < a.E → sddmmCooEid a i = sddmmCooEid a j → i = j)
    (hf : f < b.E) (hq : q < b.out_len)
    (hinj2 : ∀ i, i < b.E → ∀ j, j < b.E → sddmmCsrEid b i = sddmmCsrEid b j → i = j) :
    runSDDMMCoo a ntx nty nbx nby out0 (sddmmCooEid a e * a.out_len + p) =
      runSDDMMCoo a ntx nty nbx nby out1 (sddmmCooEid a e * a.out_len + p) ∧
    runSDDMMCsr b ntx nty nbx nby out2 (sddmmCsrEid b f * b.out_len + q) =
      runSDDMMCsr b ntx nty nbx nby out3 (sddmmCsrEid b f * b.out_len + q) :=
  ⟨(run_value_coo a ntx nty nbx nby e p out0 hx hy hbx hby he hp hinj).trans
      (run_value_coo a ntx nty nbx nby e p out1 hx hy hbx hby he hp hinj).symm,
    (run_value_csr b ntx nty nbx nby f q out2 hx hy hbx hby hf hq hinj2).trans
      (run_value_csr b ntx nty nbx nby f q out3 hx hy hbx hby hf hq hinj2).symm⟩

/-- C9 witness: the theorem applied on zeroed buffers (and a nonzero buffer,
showing the stored value ignores prior contents) at a concrete cell. -/
theorem sddmm_c9_witness :
    runSDDMMCoo exArgs 1 1 1 1 zeroBuf (sddmmCooEid exArgs 2 * exArgs.out_len + 1) =
      runSDDMMCoo exArgs 1 1 1 1 zeroBuf (sddmmCooEid exArgs 2 * exArgs.out_len + 1) ∧
    runSDDMMCsr exCsr 1 1 1 1 zeroBuf (sddmmCsrEid exCsr 1 * exCsr.out_len + 0) =
      runSDDMMCsr exCsr 1 1 1 1 (fun _ => 7) (sddmmCsrEid exCsr 1 * exCsr.out_len + 0) :=
  sddmm_c9 exArgs exCsr 1 1 1 1 2 1 1 0 zeroBuf zeroBuf zeroBuf (fun _ => 7)
    (by decide) (by decide) (by decide) (by decide)
    (by decide) (by decide) (by decide)
    (by decide) (by decide) (by decide)

/-- C10: in the non-broadcast specialization the offset tables are never read:
the output is unchanged under arbitrary replacement of both tables (in
particular the null tables of the dispatch entry points are never dereferenced), on
both kernels. -/
theorem sddmm_c10 (a : CooArgs) (b : CsrArgs)
    (tu1 tv1 tu2 tv2 su1 sv1 su2 sv2 : Nat → Nat)
    (ha : a.useBcast = false) (hbb : b.useBcast = false)
    (ntx nty nbx nby : Nat) (out0 out1 : Nat → DType) (idx jdx : Nat) :
    runSDDMMCoo { a with ubcast_off := tu1, vbcast_off := tv1 } ntx nty nbx nby out0 idx =
      runSDDMMCoo { a with ubcast_off := tu2, vbcast_off := tv2 } ntx nty nbx nby out0 idx ∧
    runSDDMMCsr { b with ubcast_off := su1, vbcast_off := sv1 } ntx nty nbx nby out1 jdx =
      runSDDMMCsr { b with ubcast_off := su2, vbcast_off := sv2 } ntx nty nbx nby out1 jdx := by
  constructor
  · have hfold : runSDDMMCoo { a with ubcast_off := tu1, vbcast_off := tv1 }
        ntx nty nbx nby out0 =
        runSDDMMCoo { a with ubcast_off := tu2, vbcast_off := tv2 } ntx nty nbx nby out0 := by
      unfold runSDDMMCoo
      apply List.foldl_ext
      intro o r hr
      have hbody : sddmmCooBody { a with ubcast_off := tu1, vbcast_off := tv1 } r.1 r.2 =
          sddmmCooBody { a with ubcast_off := tu2, vbcast_off := tv2 } r.1 r.2 := by
        simp [sddmmCooBody, cooLhsOff, cooRhsOff, ha]
      rw [hbody]
      rfl
    exact congrFun hfold idx
  · have hfold : runSDDMMCsr { b with ubcast_off := su1, vbcast_off := sv1 }
        ntx nty nbx nby out1 =
        runSDDMMCsr { b with ubcast_off := su2, vbcast_off := sv2 } ntx nty nbx nby out1 := by
      unfold runSDDMMCsr
      apply List.foldl_ext
      intro o r hr
      have hbody : sddmmCsrBody { b with ubcast_off := su1, vbcast_off := sv1 } r.1 r.2 =
          sddmmCsrBody { b with ubcast_off := su2, vbcast_off := sv2 } r.1 r.2 := by
        simp [sddmmCsrBody, csrLhsOff, csrRhsOff, hbb]
      rw [hbody]
      rfl
    exact congrFun hfold jdx

/-- C10 witness: garbage offset tables do not change the non-broadcast runs of
the concrete example. -/
theorem sddmm_c10_witness :
    runSDDMMCoo { exArgs with ubcast_off := fun q => q + 7, vbcast_off := fun q => q + 9 }
        1 1 1 1 zeroBuf 2 =
      runSDDMMCoo { exArgs with ubcast_off := idMap, vbcast_off := idMap }
        1 1 1 1 zeroBuf 2 ∧
    runSDDMMCsr { exCsr with ubcast_off := fun q => q + 3, vbcast_off := fun q => q + 4 }
        1 1 1 1 zeroBuf 5 =
      runSDDMMCsr { exCsr with ubcast_off := idMap, vbcast_off := idMap }
        1 1 1 1 zeroBuf 5 :=
  sddmm_c10 exArgs exCsr (fun q => q + 7) (fun q => q + 9) idMap idMap
    (fun q => q + 3) (fun q => q + 4) idMap idMap rfl rfl 1 1 1 1 zeroBuf zeroBuf 2 5

end Sddmm
